import Mathlib

/-!
Shallow embedding of the class-constant mechanism of the econolab
repository: the `class_constant` descriptor and the `MyMeta` metaclass
captured in the behavioural notebook embedded in
`docs/source/references/api/currency.rst`, together with the fragment of
the host attribute protocol (C3 linearisation, data-descriptor
precedence, guarded type-level assignment and deletion) that the
mechanism relies on.
-/

/-- Single-quote character, used when rendering error messages. -/
def sglq : String := String.singleton (Char.ofNat 39)

/-- Host values manipulated by the embedded program.  A Python set of
strings is represented as a list considered up to membership. -/
inductive Value : Type
  | int : Int → Value
  | str : String → Value
  | strset : List String → Value
  | none : Value
deriving DecidableEq

/-- The `class_constant` descriptor.  Its `fget` is always a constant
function (as produced by `MyMeta._make_class_constant`), so it is
represented by the value that function returns; `name` is `None` until
`__set_name__` binds it during type construction. -/
structure class_constant : Type where
  name : Option String
  value : Value
deriving DecidableEq

/-- An entry of a class namespace: an ordinary value, or a
`class_constant` descriptor. -/
inductive Attr : Type
  | plain : Value → Attr
  | slot : class_constant → Attr
deriving DecidableEq

/-- A class namespace (`__dict__`): an association list with unique keys. -/
abbrev NS := List (String × Attr)

def nsGet : NS → String → Option Attr
  | [], _ => Option.none
  | p :: rest, k => if p.1 == k then Option.some p.2 else nsGet rest k

def nsSet : NS → String → Attr → NS
  | [], k, a => [(k, a)]
  | (k', a') :: rest, k, a =>
    if k' == k then (k, a) :: rest else (k', a') :: nsSet rest k a

def nsPop (ns : NS) (k : String) : NS :=
  ns.filter (fun p => !(p.1 == k))

def nsKeys (ns : NS) : List String := ns.map (·.1)

/-- A class object: its name, its own namespace, its method resolution
order (a list of class names, starting with its own), and whether its
metaclass is `MyMeta` (`true`) or plain `type` (`false`). -/
structure PyClass where
  cname : String
  dict : NS
  mro : List String
  isMyMeta : Bool
deriving DecidableEq

/-- The universe of defined classes. -/
abbrev Env := List PyClass

def findClass (env : Env) (n : String) : Option PyClass :=
  env.find? (fun c => c.cname == n)

/-- Attribute resolution along a method resolution order: the first
class whose own namespace holds the name supplies the entry. -/
def lookupInMro (env : Env) : List String → String → Option Attr
  | [], _ => Option.none
  | m :: rest, a =>
    match findClass env m with
    | Option.some c =>
      match nsGet c.dict a with
      | Option.some found => Option.some found
      | Option.none => lookupInMro env rest a
    | Option.none => lookupInMro env rest a

def mroOf (env : Env) (n : String) : List String :=
  ((findClass env n).map (·.mro)).getD []

/-- `class_constant.__repr__`. -/
def reprSlot (c : class_constant) : String :=
  "class constant " ++ sglq ++ (c.name.getD "None") ++ sglq

/-- Reading an attribute through a class object: the resolved
`class_constant`'s `__get__` substitutes the owner for the missing
instance and calls the constant `fget`; a plain entry is returned
directly. -/
def type_getattr (env : Env) (clsName attrName : String) : Except String Value :=
  match lookupInMro env (mroOf env clsName) attrName with
  | Option.some (Attr.slot c) => .ok c.value
  | Option.some (Attr.plain v) => .ok v
  | Option.none => .error ("AttributeError: " ++ attrName)

/-- An instance: the name of its class plus its private storage
(`__dict__`). -/
structure PyInst where
  cls : String
  idict : List (String × Value)
deriving DecidableEq

def vGet : List (String × Value) → String → Option Value
  | [], _ => Option.none
  | p :: rest, k => if p.1 == k then Option.some p.2 else vGet rest k

def vSet : List (String × Value) → String → Value → List (String × Value)
  | [], k, v => [(k, v)]
  | (k', v') :: rest, k, v =>
    if k' == k then (k, v) :: rest else (k', v') :: vSet rest k v

def vPop (d : List (String × Value)) (k : String) : List (String × Value) :=
  d.filter (fun p => !(p.1 == k))

/-- `object.__getattribute__`: a data descriptor found on the class wins
over the instance storage, which wins over a plain class attribute. -/
def object_getattr (env : Env) (i : PyInst) (a : String) : Except String Value :=
  match lookupInMro env (mroOf env i.cls) a, vGet i.idict a with
  | Option.some (Attr.slot c), _ => .ok c.value
  | _, Option.some v => .ok v
  | Option.some (Attr.plain v), Option.none => .ok v
  | Option.none, Option.none => .error ("AttributeError: " ++ a)

/-- `object.__setattr__`: a resolved `class_constant` raises through its
`__set__`; otherwise the instance storage is updated. -/
def object_setattr (env : Env) (i : PyInst) (a : String) (v : Value) :
    Except String (List (String × Value)) :=
  match lookupInMro env (mroOf env i.cls) a with
  | Option.some (Attr.slot c) =>
    .error (reprSlot c ++ " of " ++ sglq ++ i.cls ++ sglq ++ " object cannot be modified.")
  | _ => .ok (vSet i.idict a v)

/-- `object.__delattr__`: a resolved `class_constant` raises through its
`__delete__`; otherwise the entry is removed from the instance storage. -/
def object_delattr (env : Env) (i : PyInst) (a : String) :
    Except String (List (String × Value)) :=
  match lookupInMro env (mroOf env i.cls) a with
  | Option.some (Attr.slot c) =>
    .error (reprSlot c ++ " of " ++ sglq ++ i.cls ++ sglq ++ " object cannot be deleted.")
  | _ =>
    match vGet i.idict a with
    | Option.some _ => .ok (vPop i.idict a)
    | Option.none => .error ("AttributeError: " ++ a)

/-- `MyMeta._is_class_constant`: scan every class of the given method
resolution order for a `class_constant` entry under the name. -/
def is_class_constant (env : Env) (mro : List String) (a : String) : Bool :=
  mro.any (fun m =>
    match findClass env m with
    | Option.some c =>
      match nsGet c.dict a with
      | Option.some (Attr.slot _) => true
      | _ => false
    | Option.none => false)

def updateClass (env : Env) (n : String) (f : PyClass → PyClass) : Env :=
  env.map (fun c => if c.cname == n then f c else c)

/-- `type.__setattr__` (the unguarded host assignment). -/
def type_setattr (env : Env) (clsName a : String) (v : Value) : Env :=
  updateClass env clsName (fun c => { c with dict := nsSet c.dict a (Attr.plain v) })

/-- `MyMeta.__setattr__`. -/
def MyMeta_setattr (env : Env) (clsName a : String) (v : Value) : Except String Env :=
  match findClass env clsName with
  | Option.none => .error ("NameError: " ++ clsName)
  | Option.some cls =>
    if is_class_constant env cls.mro a then
      .error ("Cannot modify class constant " ++ sglq ++ cls.cname ++ "." ++ a ++ sglq ++ ".")
    else .ok (type_setattr env clsName a v)

/-- `type.__delattr__` (the unguarded host deletion). -/
def type_delattr (env : Env) (clsName a : String) : Except String Env :=
  match findClass env clsName with
  | Option.none => .error ("NameError: " ++ clsName)
  | Option.some cls =>
    match nsGet cls.dict a with
    | Option.some _ => .ok (updateClass env clsName (fun c => { c with dict := nsPop c.dict a }))
    | Option.none => .error ("AttributeError: " ++ a)

/-- `MyMeta.__delattr__`. -/
def MyMeta_delattr (env : Env) (clsName a : String) : Except String Env :=
  match findClass env clsName with
  | Option.none => .error ("NameError: " ++ clsName)
  | Option.some cls =>
    if is_class_constant env cls.mro a then
      .error ("Cannot delete class constant " ++ sglq ++ cls.cname ++ "." ++ a ++ sglq ++ ".")
    else type_delattr env clsName a

/-- Assignment on a class object dispatches on the metaclass. -/
def setattrOnType (env : Env) (clsName a : String) (v : Value) : Except String Env :=
  match findClass env clsName with
  | Option.none => .error ("NameError: " ++ clsName)
  | Option.some cls =>
    if cls.isMyMeta then MyMeta_setattr env clsName a v
    else .ok (type_setattr env clsName a v)

/-- Deletion on a class object dispatches on the metaclass. -/
def delattrOnType (env : Env) (clsName a : String) : Except String Env :=
  match findClass env clsName with
  | Option.none => .error ("NameError: " ++ clsName)
  | Option.some cls =>
    if cls.isMyMeta then MyMeta_delattr env clsName a
    else type_delattr env clsName a

/-! ### C3 linearisation, as performed by `type.__new__` -/

/-- A head is good when it occurs in no tail of the remaining sequences. -/
def goodHead (seqs : List (List String)) (h : String) : Bool :=
  seqs.all (fun l => !(l.tail.contains h))

def selectHead (seqs : List (List String)) : List (List String) → Option String
  | [] => Option.none
  | [] :: rest => selectHead seqs rest
  | (h :: _) :: rest =>
    if goodHead seqs h then Option.some h else selectHead seqs rest

def c3merge (fuel : Nat) (seqs0 : List (List String)) : Option (List String) :=
  match fuel with
  | 0 => if (seqs0.filter (fun l => !l.isEmpty)).isEmpty then Option.some [] else Option.none
  | fuel + 1 =>
    if (seqs0.filter (fun l => !l.isEmpty)).isEmpty then Option.some []
    else
      match selectHead (seqs0.filter (fun l => !l.isEmpty))
          (seqs0.filter (fun l => !l.isEmpty)) with
      | Option.none => Option.none
      | Option.some h =>
        (c3merge fuel ((seqs0.filter (fun l => !l.isEmpty)).map
          (List.filter (fun x => !(x == h))))).map (h :: ·)

def lookupMros (env : Env) : List String → Option (List (List String))
  | [] => Option.some []
  | b :: bs =>
    match findClass env b with
    | Option.none => Option.none
    | Option.some c => (lookupMros env bs).map (c.mro :: ·)

def sumLen (ls : List (List String)) : Nat := ls.foldr (fun l n => l.length + n) 0

def computeMro (env : Env) (name : String) (bases : List String) : Option (List String) :=
  match lookupMros env bases with
  | Option.none => Option.none
  | Option.some ms =>
    match c3merge (sumLen ms + bases.length + 1) (ms ++ [bases]) with
    | Option.none => Option.none
    | Option.some merged => Option.some (name :: merged)

/-! ### Type construction -/

/-- `MyMeta._make_class_constant`: wrap a raw value in a descriptor whose
`fget` is the constant function returning it. -/
def make_class_constant (v : Value) : class_constant := ⟨Option.none, v⟩

/-- `set(x)` for the values that can appear where the code builds a set:
a set stays itself and a string is iterated into its characters; other
values are not iterable. -/
def setOfValue (v : Value) : Except String (List String) :=
  match v with
  | Value.strset l => .ok l
  | Value.str s => .ok (s.toList.map (fun ch => String.singleton ch))
  | _ => .error "TypeError: object is not iterable"

/-- `set(namespace.pop("__constant_attrs__", set()))`. -/
def extractDeclared (ns : NS) : Except String (List String) :=
  match nsGet ns "__constant_attrs__" with
  | Option.none => .ok []
  | Option.some (Attr.plain v) => setOfValue v
  | Option.some (Attr.slot _) => .error "TypeError: object is not iterable"

/-- The promotion loop of `MyMeta.__new__`: every declared name that is
not already a `class_constant` has its raw value (default `None`) popped
and replaced by a freshly made descriptor. -/
def processAttrs : NS → List String → NS
  | ns, [] => ns
  | ns, a :: rest =>
    processAttrs
      (match nsGet ns a with
        | Option.some (Attr.slot _) => ns
        | Option.some (Attr.plain v) => nsSet ns a (Attr.slot (make_class_constant v))
        | Option.none => nsSet ns a (Attr.slot (make_class_constant Value.none)))
      rest

/-- `__set_name__`, called by `type.__new__` on every descriptor in the
namespace. -/
def bindAttr (k : String) (a : Attr) : Attr :=
  match a with
  | Attr.slot c => Attr.slot ⟨Option.some k, c.value⟩
  | p => p

def bindNames (ns : NS) : NS := ns.map (fun p => (p.1, bindAttr p.1 p.2))

/-- The keys of a namespace that hold `class_constant` entries. -/
def slotNamesOf (ns : NS) : List String :=
  ns.filterMap (fun p =>
    match p.2 with
    | Attr.slot _ => Option.some p.1
    | _ => Option.none)

/-- The union loop of `MyMeta.__new__`:
`constant_attrs.update(getattr(base, "__constants__", set()))` over the
method resolution order. -/
def gatherConstants (env : Env) : List String → List String → Except String (List String)
  | acc, [] => .ok acc
  | acc, b :: rest =>
    match type_getattr env b "__constants__" with
    | .ok v =>
      match setOfValue v with
      | .ok s => gatherConstants env (acc ++ s) rest
      | .error e => .error e
    | .error _ => gatherConstants env acc rest

/-- The processed namespace that `MyMeta.__new__` hands to
`type.__new__`: the declared names promoted and every descriptor bound
via `__set_name__`. -/
def MyMeta_new_dict (ns : NS) (declared : List String) : NS :=
  bindNames (processAttrs (nsPop ns "__constant_attrs__") declared)

/-- `MyMeta.__new__`: promote the declared names, finish ordinary type
construction, collect the constant names of the class itself and of
every class in its method resolution order, and publish the result as
`__constants__` through `MyMeta.__setattr__`. -/
def MyMeta_new (env : Env) (name : String) (bases : List String) (ns : NS) :
    Except String Env :=
  match extractDeclared ns with
  | .error e => .error e
  | .ok declared =>
    match computeMro env name bases with
    | Option.none => .error ("TypeError: mro conflict for " ++ name)
    | Option.some mro =>
      match gatherConstants (⟨name, MyMeta_new_dict ns declared, mro, true⟩ :: env)
          (declared ++ slotNamesOf (MyMeta_new_dict ns declared)) mro with
      | .error e => .error e
      | .ok consts =>
        MyMeta_setattr (⟨name, MyMeta_new_dict ns declared, mro, true⟩ :: env)
          name "__constants__" (Value.strset consts)

/-- `type.__new__` for a class whose metaclass is plain `type`. -/
def type_new_plain (env : Env) (name : String) (bases : List String) (ns : NS) :
    Except String Env :=
  match computeMro env name bases with
  | Option.none => .error ("TypeError: mro conflict for " ++ name)
  | Option.some mro => .ok (⟨name, bindNames ns, mro, false⟩ :: env)

/-- Class definition: the metaclass is `MyMeta` when requested explicitly
or derived from a base, and the bases default to `object`. -/
def define_class (env : Env) (name : String) (bases : List String) (ns : NS)
    (explicitMeta : Bool) : Except String Env :=
  let bases1 := if bases.isEmpty then ["object"] else bases
  let useMeta :=
    explicitMeta || bases1.any (fun b => (((findClass env b).map (·.isMyMeta)).getD false))
  if useMeta then MyMeta_new env name bases1 ns else type_new_plain env name bases1 ns

/-! ### The literal hierarchy of the behavioural notebook -/

def objectCls : PyClass := ⟨"object", [], ["object"], false⟩

def envInit : Env := [objectCls]

def getEnv (e : Except String Env) : Env := e.toOption.getD []

def nsA : NS :=
  [("__constant_attrs__", Attr.plain (Value.strset ["foo"])),
   ("foo", Attr.plain (Value.int 42))]

def envA : Env := getEnv (define_class envInit "A" [] nsA true)

def nsB : NS :=
  [("__constant_attrs__", Attr.plain (Value.strset ["bar"])),
   ("bar", Attr.plain (Value.str "hello there"))]

def envB : Env := getEnv (define_class envA "B" ["A"] nsB false)

def envC : Env := getEnv (define_class envB "C" [] [] false)

def nsD : NS :=
  [("__constant_attrs__", Attr.plain (Value.strset ["gaz"])),
   ("gaz", Attr.plain (Value.int (-1)))]

def envD : Env := getEnv (define_class envC "D" ["C", "B"] nsD false)

def dInst : PyInst := ⟨"D", []⟩

/-- A subclass of `B` whose body re-declares the constant name `bar` as
an ordinary (non-constant) attribute. -/
def envE : Env :=
  getEnv (define_class envB "E" ["B"] [("bar", Attr.plain (Value.int 5))] false)

/-- The published constant-name set of a class, as read back through
ordinary attribute access. -/
def publishedOf (env : Env) (clsName : String) : List String :=
  match type_getattr env clsName "__constants__" with
  | .ok (Value.strset l) => l
  | _ => []

deriving instance DecidableEq for Except

/-! ### Auxiliary concrete classes used by individual claims -/

/-- A registrar subclass of `A` that redeclares `foo` as a constant with
a different value. -/
def nsF : NS :=
  [("__constant_attrs__", Attr.plain (Value.strset ["foo"])),
   ("foo", Attr.plain (Value.int 99))]

def envF : Env := getEnv (define_class envD "F" ["A"] nsF false)

/-- A registrar class declaring a constant name with no matching
namespace entry. -/
def nsG : NS := [("__constant_attrs__", Attr.plain (Value.strset ["lazy"]))]

def envG : Env := getEnv (define_class envInit "G" [] nsG true)

/-- The environment after assigning an empty set to `D.__constants__`. -/
def envD6 : Env := getEnv (setattrOnType envD "D" "__constants__" (Value.strset []))

def clsD : PyClass := (findClass envD "D").getD objectCls

def cBar : class_constant := ⟨some "bar", Value.str "hello there"⟩


def clsB : PyClass := (findClass envC "B").getD objectCls

def clsG : PyClass := (findClass envG "G").getD objectCls

/-- Whether an optional namespace entry is a `class_constant`. -/
def isSlotEntry : Option Attr → Bool
  | Option.some (Attr.slot _) => true
  | _ => false

/-- Whether an optional namespace entry is an ordinary value. -/
def isPlainEntry : Option Attr → Bool
  | Option.some (Attr.plain _) => true
  | _ => false

/-- All names that some class of the given method resolution order holds
as a `class_constant` in its own namespace (the names the guard's scan
protects). -/
def scanNames (env : Env) (mro : List String) : List String :=
  mro.foldr (fun m acc =>
    (match findClass env m with
     | Option.some c => slotNamesOf c.dict
     | Option.none => []) ++ acc) []

/-- The `__constants__` attribute of a class, when readable, is a set of
strings (reading it never yields a value of another shape). -/
def constOkB (env : Env) (n : String) : Bool :=
  match type_getattr env n "__constants__" with
  | .ok (Value.strset _) => true
  | .ok _ => false
  | .error _ => true

/-! ### Basic lemmas about the embedded attribute protocol -/

theorem findClass_mem (env : Env) (n : String) (c : PyClass)
    (h : findClass env n = some c) : c ∈ env ∧ c.cname = n := by
  unfold findClass at h
  refine ⟨List.mem_of_find?_eq_some h, ?_⟩
  have h2 := List.find?_some h
  simpa using h2

theorem findClass_cons_ne (c : PyClass) (env : Env) (n : String)
    (h : c.cname ≠ n) : findClass (c :: env) n = findClass env n := by
  simp [findClass, List.find?_cons, h]

theorem findClass_cons_self (c : PyClass) (env : Env) :
    findClass (c :: env) c.cname = some c := by
  simp [findClass, List.find?_cons]

theorem lookupInMro_fresh (c0 : PyClass) (env : Env) (mro : List String)
    (a : String) (h : c0.cname ∉ mro) :
    lookupInMro (c0 :: env) mro a = lookupInMro env mro a := by
  induction mro with
  | nil => rfl
  | cons m rest ih =>
    have hm : c0.cname ≠ m := fun e => h (e ▸ List.mem_cons_self m rest)
    have hr : c0.cname ∉ rest := fun x => h (List.mem_cons_of_mem _ x)
    unfold lookupInMro
    rw [findClass_cons_ne _ _ _ hm]
    split
    · split
      · rfl
      · exact ih hr
    · exact ih hr

theorem lookupInMro_exists (env : Env) (mro : List String) (a : String)
    (f : Attr) (h : lookupInMro env mro a = some f) :
    ∃ m ∈ mro, ∃ c, findClass env m = some c ∧ nsGet c.dict a = some f := by
  induction mro with
  | nil => simp [lookupInMro] at h
  | cons m rest ih =>
    unfold lookupInMro at h
    split at h
    · rename_i c hc
      split at h
      · rename_i f' hg
        cases h
        exact ⟨m, List.mem_cons_self m rest, c, hc, hg⟩
      · obtain ⟨m', hm', r⟩ := ih h
        exact ⟨m', List.mem_cons_of_mem _ hm', r⟩
    · obtain ⟨m', hm', r⟩ := ih h
      exact ⟨m', List.mem_cons_of_mem _ hm', r⟩

theorem nsGet_nsSet_self (ns : NS) (k : String) (a : Attr) :
    nsGet (nsSet ns k a) k = some a := by
  induction ns with
  | nil => simp [nsSet, nsGet]
  | cons p rest ih =>
    by_cases h : p.1 = k
    · simp [nsSet, h, nsGet]
    · simpa [nsSet, h, nsGet] using ih

theorem nsGet_nsSet_ne (ns : NS) (k k' : String) (a : Attr) (h : k' ≠ k) :
    nsGet (nsSet ns k a) k' = nsGet ns k' := by
  induction ns with
  | nil => simp [nsSet, nsGet, Ne.symm h]
  | cons p rest ih =>
    by_cases hp : p.1 = k
    · simp [nsSet, hp, nsGet, Ne.symm h, h]
    · by_cases hp' : p.1 = k'
      · simp [nsSet, hp, nsGet, hp', h]
      · simpa [nsSet, hp, nsGet, hp'] using ih

theorem nsGet_entry (ns : NS) (k : String) (a : Attr)
    (h : nsGet ns k = some a) : (k, a) ∈ ns := by
  induction ns with
  | nil => cases h
  | cons p rest ih =>
    unfold nsGet at h
    by_cases hp : p.1 = k
    · rw [if_pos (by simpa using hp)] at h
      cases h
      obtain ⟨p1, p2⟩ := p
      simp only at hp
      subst hp
      exact List.mem_cons_self _ _
    · rw [if_neg (by simpa using hp)] at h
      exact List.mem_cons_of_mem _ (ih h)

theorem entry_nsGet (ns : NS) (k : String) (a : Attr)
    (hnd : (nsKeys ns).Nodup) (h : (k, a) ∈ ns) : nsGet ns k = some a := by
  induction ns with
  | nil => cases h
  | cons p rest ih =>
    rcases List.mem_cons.mp h with h1 | h2
    · subst h1; simp [nsGet]
    · have hnd' : (nsKeys rest).Nodup := (List.nodup_cons.mp hnd).2
      have hk : p.1 ∉ nsKeys rest := by
        have := (List.nodup_cons.mp hnd).1
        simpa [nsKeys] using this
      have hne : p.1 ≠ k := by
        intro e
        exact hk (by simpa [nsKeys, e] using List.mem_map_of_mem Prod.fst h2)
      simpa [nsGet, hne] using ih hnd' h2

theorem nsGet_nsPop_self (ns : NS) (k : String) : nsGet (nsPop ns k) k = none := by
  induction ns with
  | nil => rfl
  | cons p rest ih =>
    by_cases hp : p.1 = k
    · simpa [nsPop, hp] using ih
    · simpa [nsPop, hp, nsGet] using ih

theorem nsGet_nsPop_ne (ns : NS) (k k' : String) (h : k' ≠ k) :
    nsGet (nsPop ns k) k' = nsGet ns k' := by
  induction ns with
  | nil => rfl
  | cons p rest ih =>
    by_cases hp : p.1 = k
    · simpa [nsPop, hp, nsGet, Ne.symm h] using ih
    · by_cases hp' : p.1 = k'
      · simp [nsPop, hp, nsGet, hp', h, List.filter_cons]
      · simpa [nsPop, hp, nsGet, hp', List.filter_cons] using ih

theorem nsKeys_nsPop_sublist (ns : NS) (k : String) :
    (nsKeys (nsPop ns k)).Sublist (nsKeys ns) := by
  unfold nsPop nsKeys
  exact (List.filter_sublist ns).map Prod.fst

theorem nsKeys_nodup_nsPop (ns : NS) (k : String) (h : (nsKeys ns).Nodup) :
    (nsKeys (nsPop ns k)).Nodup :=
  h.sublist (nsKeys_nsPop_sublist ns k)

theorem nsKeys_nsSet_subset (ns : NS) (k : String) (a : Attr) :
    nsKeys (nsSet ns k a) ⊆ k :: nsKeys ns := by
  induction ns with
  | nil => simp [nsSet, nsKeys]
  | cons p rest ih =>
    by_cases hp : p.1 = k
    · simp only [nsSet, beq_iff_eq, hp, if_true, nsKeys, List.map_cons]
      intro x hx
      rcases List.mem_cons.mp hx with h1 | h2
      · exact h1 ▸ List.mem_cons_self _ _
      · exact List.mem_cons_of_mem _ (List.mem_cons_of_mem _ h2)
    · simp only [nsSet, beq_iff_eq, hp, if_false, nsKeys, List.map_cons]
      intro x hx
      rcases List.mem_cons.mp hx with h1 | h2
      · exact List.mem_cons_of_mem _ (h1 ▸ List.mem_cons_self _ _)
      · rcases List.mem_cons.mp (ih h2) with h3 | h4
        · exact h3 ▸ List.mem_cons_self _ _
        · exact List.mem_cons_of_mem _ (List.mem_cons_of_mem _ h4)

theorem nsKeys_nodup_nsSet (ns : NS) (k : String) (a : Attr)
    (h : (nsKeys ns).Nodup) : (nsKeys (nsSet ns k a)).Nodup := by
  induction ns with
  | nil => simp [nsSet, nsKeys]
  | cons p rest ih =>
    have h' : (p.1 :: nsKeys rest).Nodup := h
    obtain ⟨h1, h2⟩ := List.nodup_cons.mp h'
    by_cases hp : p.1 = k
    · simp only [nsSet, beq_iff_eq, hp, if_true, nsKeys, List.map_cons]
      exact List.nodup_cons.mpr ⟨hp ▸ h1, h2⟩
    · simp only [nsSet, beq_iff_eq, hp, if_false, nsKeys, List.map_cons]
      refine List.nodup_cons.mpr ⟨?_, ih h2⟩
      intro hmem
      rcases List.mem_cons.mp (nsKeys_nsSet_subset rest k a hmem) with h3 | h4
      · exact hp h3
      · exact h1 h4

theorem slotNamesOf_mem (ns : NS) (n : String) :
    n ∈ slotNamesOf ns ↔ ∃ c, (n, Attr.slot c) ∈ ns := by
  constructor
  · intro h
    obtain ⟨p, hp, he⟩ := List.mem_filterMap.mp h
    obtain ⟨p1, p2⟩ := p
    cases p2 with
    | plain v => simp at he
    | slot c =>
      simp only [Option.some.injEq] at he
      exact ⟨c, by simpa [he] using hp⟩
  · rintro ⟨c, hc⟩
    exact List.mem_filterMap.mpr ⟨(n, Attr.slot c), hc, rfl⟩

theorem nsGet_bindNames (ns : NS) (k : String) :
    nsGet (bindNames ns) k = (nsGet ns k).map (bindAttr k) := by
  induction ns with
  | nil => rfl
  | cons p rest ih =>
    by_cases hp : p.1 = k
    · simp [bindNames, nsGet, hp]
    · simpa [bindNames, nsGet, hp] using ih

theorem nsKeys_bindNames (ns : NS) : nsKeys (bindNames ns) = nsKeys ns := by
  simp [nsKeys, bindNames]

theorem slotNamesOf_bindNames (ns : NS) : slotNamesOf (bindNames ns) = slotNamesOf ns := by
  induction ns with
  | nil => rfl
  | cons p rest ih =>
    obtain ⟨p1, p2⟩ := p
    cases p2 with
    | plain v => simpa [slotNamesOf, bindNames, bindAttr] using ih
    | slot c => simpa [slotNamesOf, bindNames, bindAttr] using ih

theorem processAttrs_preserves_slot (l : List String) (ns : NS) (a : String)
    (c : class_constant) (h : nsGet ns a = some (Attr.slot c)) :
    nsGet (processAttrs ns l) a = some (Attr.slot c) := by
  induction l generalizing ns with
  | nil => exact h
  | cons b rest ih =>
    unfold processAttrs
    by_cases hb : b = a
    · subst hb
      rw [h]
      exact ih _ h
    · refine ih _ ?_
      cases hg : nsGet ns b with
      | none =>
        show nsGet (nsSet ns b (Attr.slot (make_class_constant Value.none))) a
          = some (Attr.slot c)
        rw [nsGet_nsSet_ne _ _ _ _ (Ne.symm hb)]; exact h
      | some f =>
        cases f with
        | plain v =>
          show nsGet (nsSet ns b (Attr.slot (make_class_constant v))) a
            = some (Attr.slot c)
          rw [nsGet_nsSet_ne _ _ _ _ (Ne.symm hb)]; exact h
        | slot c' => exact h

theorem processAttrs_declared_slot (l : List String) (ns : NS) (a : String)
    (h : a ∈ l) : ∃ c, nsGet (processAttrs ns l) a = some (Attr.slot c) := by
  induction l generalizing ns with
  | nil => cases h
  | cons b rest ih =>
    unfold processAttrs
    by_cases hb : a ∈ rest
    · exact ih _ hb
    · have hab : b = a := by
        rcases List.mem_cons.mp h with h1 | h2
        · exact h1.symm
        · exact absurd h2 hb
      subst hab
      cases hg : nsGet ns b with
      | none =>
        exact ⟨_, processAttrs_preserves_slot rest
          (nsSet ns b (Attr.slot (make_class_constant Value.none))) b _
          (nsGet_nsSet_self _ _ _)⟩
      | some f =>
        cases f with
        | plain v =>
          exact ⟨_, processAttrs_preserves_slot rest
            (nsSet ns b (Attr.slot (make_class_constant v))) b _
            (nsGet_nsSet_self _ _ _)⟩
        | slot c' => exact ⟨c', processAttrs_preserves_slot rest ns b c' hg⟩

theorem processAttrs_get_or_slot (l : List String) (ns : NS) (k : String) :
    nsGet (processAttrs ns l) k = nsGet ns k ∨
      ∃ c, nsGet (processAttrs ns l) k = some (Attr.slot c) := by
  by_cases hk : k ∈ l
  · exact Or.inr (processAttrs_declared_slot l ns k hk)
  · refine Or.inl ?_
    induction l generalizing ns with
    | nil => rfl
    | cons b rest ih =>
      have hbk : b ≠ k := fun e => hk (e ▸ List.mem_cons_self b rest)
      have hkr : k ∉ rest := fun x => hk (List.mem_cons_of_mem _ x)
      unfold processAttrs
      cases hg : nsGet ns b with
      | none =>
        rw [ih (nsSet ns b (Attr.slot (make_class_constant Value.none))) hkr]
        exact nsGet_nsSet_ne _ _ _ _ (Ne.symm hbk)
      | some f =>
        cases f with
        | plain v =>
          rw [ih (nsSet ns b (Attr.slot (make_class_constant v))) hkr]
          exact nsGet_nsSet_ne _ _ _ _ (Ne.symm hbk)
        | slot c' => exact ih ns hkr

theorem nsKeys_nodup_processAttrs (l : List String) (ns : NS)
    (h : (nsKeys ns).Nodup) : (nsKeys (processAttrs ns l)).Nodup := by
  induction l generalizing ns with
  | nil => exact h
  | cons b rest ih =>
    unfold processAttrs
    cases hg : nsGet ns b with
    | none => exact ih _ (nsKeys_nodup_nsSet _ _ _ h)
    | some f =>
      cases f with
      | plain v => exact ih _ (nsKeys_nodup_nsSet _ _ _ h)
      | slot c' => exact ih _ h

theorem is_class_constant_iff (env : Env) (mro : List String) (a : String) :
    is_class_constant env mro a = true ↔
      ∃ m ∈ mro, ∃ c, findClass env m = some c ∧
        ∃ sc, nsGet c.dict a = some (Attr.slot sc) := by
  unfold is_class_constant
  rw [List.any_eq_true]
  constructor
  · rintro ⟨m, hm, hp⟩
    refine ⟨m, hm, ?_⟩
    split at hp
    · rename_i c hc
      split at hp
      · rename_i sc hg
        exact ⟨c, hc, sc, hg⟩
      · simp at hp
    · simp at hp
  · rintro ⟨m, hm, c, hc, sc, hg⟩
    exact ⟨m, hm, by simp [hc, hg]⟩

theorem resolve_slot_scan (env : Env) (mro : List String) (a : String)
    (c : class_constant) (h : lookupInMro env mro a = some (Attr.slot c)) :
    is_class_constant env mro a = true := by
  obtain ⟨m, hm, cl, hc, hg⟩ := lookupInMro_exists env mro a _ h
  exact (is_class_constant_iff env mro a).mpr ⟨m, hm, cl, hc, c, hg⟩

/-! ### Lemmas about the union loop of `MyMeta.__new__` -/

theorem gather_acc_sub (env : Env) (bs : List String) (acc res : List String)
    (h : gatherConstants env acc bs = .ok res) : acc ⊆ res := by
  induction bs generalizing acc with
  | nil =>
    unfold gatherConstants at h
    cases h
    exact fun a ha => ha
  | cons b rest ih =>
    unfold gatherConstants at h
    split at h
    · split at h
      · intro a ha
        exact ih _ h (List.mem_append_left _ ha)
      · cases h
    · exact ih _ h

theorem gather_visit (env : Env) (bs : List String) (acc res : List String)
    (b : String) (s : List String)
    (h : gatherConstants env acc bs = .ok res) (hb : b ∈ bs)
    (hg : type_getattr env b "__constants__" = .ok (Value.strset s)) : s ⊆ res := by
  induction bs generalizing acc with
  | nil => cases hb
  | cons b' rest ih =>
    unfold gatherConstants at h
    rcases List.mem_cons.mp hb with h1 | h2
    · subst h1
      rw [hg] at h
      have h' : gatherConstants env (acc ++ s) rest = .ok res := h
      intro a ha
      exact gather_acc_sub env rest _ res h' (List.mem_append_right _ ha)
    · split at h
      · split at h
        · exact ih _ h h2
        · cases h
      · exact ih _ h h2

theorem gather_sound (env : Env) (bs : List String) (acc res : List String)
    (n : String) (h : gatherConstants env acc bs = .ok res) (hn : n ∈ res) :
    n ∈ acc ∨ ∃ b ∈ bs, ∃ v s, type_getattr env b "__constants__" = .ok v ∧
      setOfValue v = .ok s ∧ n ∈ s := by
  induction bs generalizing acc with
  | nil =>
    unfold gatherConstants at h
    cases h
    exact Or.inl hn
  | cons b rest ih =>
    unfold gatherConstants at h
    split at h
    · rename_i v hv
      split at h
      · rename_i s hs
        rcases ih _ h with h1 | h2
        · rcases List.mem_append.mp h1 with ha | hb
          · exact Or.inl ha
          · exact Or.inr ⟨b, List.mem_cons_self b rest, v, s, hv, hs, hb⟩
        · obtain ⟨b', hb', r⟩ := h2
          exact Or.inr ⟨b', List.mem_cons_of_mem _ hb', r⟩
      · cases h
    · rcases ih _ h with h1 | h2
      · exact Or.inl h1
      · obtain ⟨b', hb', r⟩ := h2
        exact Or.inr ⟨b', List.mem_cons_of_mem _ hb', r⟩

/-! ### Lemmas about the C3 linearisation -/

theorem selectHead_from (seqs : List (List String)) (cur : List (List String))
    (h : String) (hs : selectHead seqs cur = some h) : ∃ l ∈ cur, h ∈ l := by
  induction cur with
  | nil => cases hs
  | cons l rest ih =>
    cases l with
    | nil =>
      obtain ⟨l', hl', hm⟩ := ih hs
      exact ⟨l', List.mem_cons_of_mem _ hl', hm⟩
    | cons x xs =>
      unfold selectHead at hs
      split at hs
      · cases hs
        exact ⟨h :: xs, List.mem_cons_self _ _, List.mem_cons_self _ _⟩
      · obtain ⟨l', hl', hm⟩ := ih hs
        exact ⟨l', List.mem_cons_of_mem _ hl', hm⟩

theorem c3merge_mem (fuel : Nat) (seqs : List (List String))
    (out : List String) (h : c3merge fuel seqs = some out) :
    ∀ l ∈ seqs, ∀ x ∈ l, x ∈ out := by
  induction fuel generalizing seqs out with
  | zero =>
    intro l hl x hx
    unfold c3merge at h
    split at h
    · rename_i hempty
      exfalso
      have : l ∈ seqs.filter (fun l => !l.isEmpty) := by
        refine List.mem_filter.mpr ⟨hl, ?_⟩
        cases l with
        | nil => cases hx
        | cons y ys => simp [List.isEmpty]
      rw [List.isEmpty_iff] at hempty
      rw [hempty] at this
      cases this
    · cases h
  | succ fuel ih =>
    intro l hl x hx
    unfold c3merge at h
    split at h
    · rename_i hempty
      exfalso
      have : l ∈ seqs.filter (fun l => !l.isEmpty) := by
        refine List.mem_filter.mpr ⟨hl, ?_⟩
        cases l with
        | nil => cases hx
        | cons y ys => simp [List.isEmpty]
      rw [List.isEmpty_iff] at hempty
      rw [hempty] at this
      cases this
    · split at h
      · cases h
      · rename_i hd hsel
        cases hrec : c3merge fuel
            ((seqs.filter (fun l => !l.isEmpty)).map (List.filter (fun x => !(x == hd)))) with
        | none => rw [hrec] at h; cases h
        | some out' =>
          rw [hrec] at h
          cases h
          by_cases hxh : x = hd
          · exact hxh ▸ List.mem_cons_self _ _
          · refine List.mem_cons_of_mem _ ?_
            have hlf : l ∈ seqs.filter (fun l => !l.isEmpty) := by
              refine List.mem_filter.mpr ⟨hl, ?_⟩
              cases l with
              | nil => cases hx
              | cons y ys => simp [List.isEmpty]
            have hmem : l.filter (fun x => !(x == hd)) ∈
                (seqs.filter (fun l => !l.isEmpty)).map (List.filter (fun x => !(x == hd))) :=
              List.mem_map_of_mem _ hlf
            refine ih _ _ hrec _ hmem x ?_
            refine List.mem_filter.mpr ⟨hx, ?_⟩
            simp [hxh]

theorem c3merge_src (fuel : Nat) (seqs : List (List String))
    (out : List String) (h : c3merge fuel seqs = some out) :
    ∀ x ∈ out, ∃ l ∈ seqs, x ∈ l := by
  induction fuel generalizing seqs out with
  | zero =>
    intro x hx
    unfold c3merge at h
    split at h
    · cases h; cases hx
    · cases h
  | succ fuel ih =>
    intro x hx
    unfold c3merge at h
    split at h
    · cases h; cases hx
    · split at h
      · cases h
      · rename_i hd hsel
        cases hrec : c3merge fuel
            ((seqs.filter (fun l => !l.isEmpty)).map (List.filter (fun x => !(x == hd)))) with
        | none => rw [hrec] at h; cases h
        | some out' =>
          rw [hrec] at h
          cases h
          rcases List.mem_cons.mp hx with h1 | h2
          · subst h1
            obtain ⟨l, hl, hm⟩ := selectHead_from _ _ _ hsel
            exact ⟨l, (List.mem_filter.mp hl).1, hm⟩
          · obtain ⟨l', hl', hm'⟩ := ih _ _ hrec x h2
            obtain ⟨l, hl, he⟩ := List.mem_map.mp hl'
            refine ⟨l, (List.mem_filter.mp hl).1, ?_⟩
            rw [← he] at hm'
            exact (List.mem_filter.mp hm').1

theorem lookupMros_base (env : Env) (bases : List String)
    (ms : List (List String)) (h : lookupMros env bases = some ms)
    (b : String) (hb : b ∈ bases) :
    ∃ c, findClass env b = some c ∧ c.mro ∈ ms := by
  induction bases generalizing ms with
  | nil => cases hb
  | cons b' rest ih =>
    unfold lookupMros at h
    split at h
    · cases h
    · rename_i c hc
      cases hr : lookupMros env rest with
      | none => rw [hr] at h; cases h
      | some ms' =>
        rw [hr] at h
        have h2 : Option.some (c.mro :: ms') = Option.some ms := h
        cases h2
        rcases List.mem_cons.mp hb with h1 | h2
        · subst h1
          exact ⟨c, hc, List.mem_cons_self _ _⟩
        · obtain ⟨c', hc', hm'⟩ := ih ms' hr h2
          exact ⟨c', hc', List.mem_cons_of_mem _ hm'⟩

theorem lookupMros_src (env : Env) (bases : List String)
    (ms : List (List String)) (h : lookupMros env bases = some ms)
    (l : List String) (hl : l ∈ ms) :
    ∃ b ∈ bases, ∃ c, findClass env b = some c ∧ l = c.mro := by
  induction bases generalizing ms with
  | nil =>
    unfold lookupMros at h
    cases h
    cases hl
  | cons b' rest ih =>
    unfold lookupMros at h
    split at h
    · cases h
    · rename_i c hc
      cases hr : lookupMros env rest with
      | none => rw [hr] at h; cases h
      | some ms' =>
        rw [hr] at h
        have h3 : Option.some (c.mro :: ms') = Option.some ms := h
        cases h3
        rcases List.mem_cons.mp hl with h1 | h2
        · exact ⟨b', List.mem_cons_self _ _, c, hc, h1⟩
        · obtain ⟨b'', hb'', r⟩ := ih ms' hr h2
          exact ⟨b'', List.mem_cons_of_mem _ hb'', r⟩

theorem computeMro_spec (env : Env) (name : String) (bases : List String)
    (mro : List String) (h : computeMro env name bases = some mro) :
    ∃ ms merged, lookupMros env bases = some ms ∧
      c3merge (sumLen ms + bases.length + 1) (ms ++ [bases]) = some merged ∧
      mro = name :: merged := by
  unfold computeMro at h
  split at h
  · cases h
  · rename_i ms hms
    split at h
    · cases h
    · rename_i merged hmg
      cases h
      exact ⟨ms, merged, hms, hmg, rfl⟩

/-- Everything in the merged tail of a computed method resolution order
is a base or a member of a base's stored method resolution order. -/
theorem computeMro_tail_src (env : Env) (bases : List String)
    (merged : List String) (ms : List (List String))
    (hms : lookupMros env bases = some ms)
    (hmg : c3merge (sumLen ms + bases.length + 1) (ms ++ [bases]) = some merged)
    (m : String) (hm : m ∈ merged) :
    m ∈ bases ∨ ∃ b ∈ bases, ∃ c, findClass env b = some c ∧ m ∈ c.mro := by
  obtain ⟨l, hl, hml⟩ := c3merge_src _ _ _ hmg m hm
  rcases List.mem_append.mp hl with h1 | h2
  · obtain ⟨b, hb, c, hc, he⟩ := lookupMros_src env bases ms hms l h1
    exact Or.inr ⟨b, hb, c, hc, he ▸ hml⟩
  · rcases List.mem_singleton.mp h2 with rfl
    exact Or.inl hml

/-- A base's stored method resolution order is contained in the merged
tail of a computed method resolution order. -/
theorem computeMro_base_sub (env : Env) (bases : List String)
    (merged : List String) (ms : List (List String))
    (hms : lookupMros env bases = some ms)
    (hmg : c3merge (sumLen ms + bases.length + 1) (ms ++ [bases]) = some merged)
    (b : String) (hb : b ∈ bases) (c : PyClass) (hc : findClass env b = some c) :
    c.mro ⊆ merged := by
  obtain ⟨c', hc', hm'⟩ := lookupMros_base env bases ms hms b hb
  rw [hc] at hc'
  cases hc'
  exact fun x hx => c3merge_mem _ _ _ hmg c.mro (List.mem_append_left _ hm') x hx

/-! ### Stability of the environment under construction and update -/

theorem type_setattr_cons (cls0 : PyClass) (env : Env) (k : String) (v : Value)
    (hf : ∀ X ∈ env, X.cname ≠ cls0.cname) :
    type_setattr (cls0 :: env) cls0.cname k v =
      ({ cls0 with dict := nsSet cls0.dict k (Attr.plain v) } : PyClass) :: env := by
  unfold type_setattr updateClass
  rw [List.map_cons]
  have h1 : (if cls0.cname == cls0.cname then
      ({ cls0 with dict := nsSet cls0.dict k (Attr.plain v) } : PyClass) else cls0)
      = ({ cls0 with dict := nsSet cls0.dict k (Attr.plain v) } : PyClass) := by simp
  rw [h1]
  have h2 : env.map (fun c => if c.cname == cls0.cname then
      ({ c with dict := nsSet c.dict k (Attr.plain v) } : PyClass) else c) = env := by
    have := List.map_congr_left (l := env)
      (f := fun c => if c.cname == cls0.cname then
        ({ c with dict := nsSet c.dict k (Attr.plain v) } : PyClass) else c)
      (g := id) (fun c hc => by simp [hf c hc])
    simpa using this
  rw [h2]

theorem MyMeta_setattr_ok (env : Env) (clsName a : String) (v : Value)
    (env' : Env) (h : MyMeta_setattr env clsName a v = .ok env') :
    ∃ cls, findClass env clsName = some cls ∧
      is_class_constant env cls.mro a = false ∧
      env' = type_setattr env clsName a v := by
  unfold MyMeta_setattr at h
  split at h
  · cases h
  · rename_i cls hc
    split at h
    · cases h
    · rename_i hscan
      cases h
      exact ⟨cls, hc, by simpa using hscan, rfl⟩

/-- Success of `MyMeta.__new__`, decomposed into its stages. -/
theorem MyMeta_new_ok (env : Env) (name : String) (bases : List String)
    (ns : NS) (env' : Env) (h : MyMeta_new env name bases ns = .ok env') :
    ∃ declared mro consts,
      extractDeclared ns = .ok declared ∧
      computeMro env name bases = some mro ∧
      gatherConstants (⟨name, MyMeta_new_dict ns declared, mro, true⟩ :: env)
        (declared ++ slotNamesOf (MyMeta_new_dict ns declared)) mro = .ok consts ∧
      is_class_constant (⟨name, MyMeta_new_dict ns declared, mro, true⟩ :: env)
        mro "__constants__" = false ∧
      env' = type_setattr (⟨name, MyMeta_new_dict ns declared, mro, true⟩ :: env)
        name "__constants__" (Value.strset consts) := by
  unfold MyMeta_new at h
  split at h
  · cases h
  · rename_i declared hdecl
    split at h
    · cases h
    · rename_i mro hmro
      split at h
      · cases h
      · rename_i consts hgc
        obtain ⟨cls, hc, hscan, he⟩ := MyMeta_setattr_ok _ _ _ _ _ h
        have hcls : cls = ⟨name, MyMeta_new_dict ns declared, mro, true⟩ := by
          have := findClass_cons_self ⟨name, MyMeta_new_dict ns declared, mro, true⟩ env
          rw [this] at hc
          cases hc
          rfl
        subst hcls
        exact ⟨declared, mro, consts, hdecl, hmro, hgc, hscan, he⟩

/-! ### C1 -/

/-- C1, as stated, is refuted: `bar` is a constant name visible on the
registrar type `E` (it is in `E.__constants__`), yet assigning `bar`
through an instance of `E` succeeds, because `E`'s body redeclared `bar`
as an ordinary attribute that shadows the inherited `class_constant`. -/
theorem C1_counterexample :
    "bar" ∈ publishedOf envE "E" ∧
    object_setattr envE ⟨"E", []⟩ "bar" (Value.str "x") = .ok [("bar", Value.str "x")] := by
  exact ⟨by decide, by decide⟩

/-- C1 (amended): for every type whose metaclass is the registrar and
every name that resolves through its inheritance order to a
`class_constant`, all four operations — instance assignment, instance
deletion, type-level assignment, type-level deletion — raise the
immutable-modify / immutable-delete error and return no updated state. -/
theorem C1_constant_ops_raise (env : Env) (i : PyInst) (cls : PyClass)
    (n : String) (c : class_constant) (v : Value)
    (hc : findClass env i.cls = some cls) (hm : cls.isMyMeta = true)
    (hr : lookupInMro env cls.mro n = some (Attr.slot c)) :
    object_setattr env i n v =
      .error (reprSlot c ++ " of " ++ sglq ++ i.cls ++ sglq ++ " object cannot be modified.") ∧
    object_delattr env i n =
      .error (reprSlot c ++ " of " ++ sglq ++ i.cls ++ sglq ++ " object cannot be deleted.") ∧
    setattrOnType env i.cls n v =
      .error ("Cannot modify class constant " ++ sglq ++ i.cls ++ "." ++ n ++ sglq ++ ".") ∧
    delattrOnType env i.cls n =
      .error ("Cannot delete class constant " ++ sglq ++ i.cls ++ "." ++ n ++ sglq ++ ".") := by
  have hmro : mroOf env i.cls = cls.mro := by
    unfold mroOf; rw [hc]; rfl
  have hname : cls.cname = i.cls := (findClass_mem env i.cls cls hc).2
  have hscan : is_class_constant env cls.mro n = true := resolve_slot_scan env cls.mro n c hr
  refine ⟨?_, ?_, ?_, ?_⟩
  · simp [object_setattr, hmro, hr]
  · simp [object_delattr, hmro, hr]
  · unfold setattrOnType
    rw [hc]
    show (if cls.isMyMeta = true then MyMeta_setattr env i.cls n v
      else Except.ok (type_setattr env i.cls n v)) = _
    rw [hm, if_pos rfl]
    unfold MyMeta_setattr
    rw [hc]
    show (if is_class_constant env cls.mro n = true then
        Except.error ("Cannot modify class constant " ++ sglq ++ cls.cname ++ "." ++ n ++ sglq ++ ".")
      else Except.ok (type_setattr env i.cls n v)) = _
    rw [hscan, if_pos rfl, hname]
  · unfold delattrOnType
    rw [hc]
    show (if cls.isMyMeta = true then MyMeta_delattr env i.cls n
      else type_delattr env i.cls n) = _
    rw [hm, if_pos rfl]
    unfold MyMeta_delattr
    rw [hc]
    show (if is_class_constant env cls.mro n = true then
        Except.error ("Cannot delete class constant " ++ sglq ++ cls.cname ++ "." ++ n ++ sglq ++ ".")
      else type_delattr env i.cls n) = _
    rw [hscan, if_pos rfl, hname]

theorem C1_constant_ops_raise_witness :
    object_setattr envD dInst "bar" (Value.str "hello") =
      .error (reprSlot cBar ++ " of " ++ sglq ++ dInst.cls ++ sglq ++ " object cannot be modified.") ∧
    object_delattr envD dInst "bar" =
      .error (reprSlot cBar ++ " of " ++ sglq ++ dInst.cls ++ sglq ++ " object cannot be deleted.") ∧
    setattrOnType envD dInst.cls "bar" (Value.str "hello") =
      .error ("Cannot modify class constant " ++ sglq ++ dInst.cls ++ "." ++ "bar" ++ sglq ++ ".") ∧
    delattrOnType envD dInst.cls "bar" =
      .error ("Cannot delete class constant " ++ sglq ++ dInst.cls ++ "." ++ "bar" ++ sglq ++ ".") :=
  C1_constant_ops_raise envD dInst clsD "bar" cBar (Value.str "hello")
    (by decide) (by decide) (by decide)

/-! ### C3 -/

/-- C3: reading a name that resolves through the inheritance order to a
`class_constant` — whether through the type or through any instance —
returns the value held by that slot, the one owned by the most specific
class in the resolution order that declares it.  In the literal
hierarchy `A.foo` is `42` (also through an instance), `d.bar` and
`D.bar` are `"hello there"`, and a subclass `F` of `A` redeclaring the
constant `foo = 99` shadows `A`'s value for itself and its instances
while `A.foo` still reads `42`. -/
theorem C3_constant_reads (env : Env) (T n : String) (c : class_constant)
    (h : lookupInMro env (mroOf env T) n = some (Attr.slot c)) :
    (type_getattr env T n = .ok c.value ∧
      ∀ idict, object_getattr env ⟨T, idict⟩ n = .ok c.value) ∧
    (type_getattr envA "A" "foo" = .ok (Value.int 42) ∧
      object_getattr envA ⟨"A", []⟩ "foo" = .ok (Value.int 42) ∧
      object_getattr envD dInst "bar" = .ok (Value.str "hello there") ∧
      type_getattr envD "D" "bar" = .ok (Value.str "hello there") ∧
      type_getattr envF "F" "foo" = .ok (Value.int 99) ∧
      object_getattr envF ⟨"F", []⟩ "foo" = .ok (Value.int 99) ∧
      type_getattr envF "A" "foo" = .ok (Value.int 42)) := by
  refine ⟨⟨?_, ?_⟩, by decide, by decide, by decide, by decide, by decide, by decide, by decide⟩
  · simp [type_getattr, h]
  · intro idict
    simp [object_getattr, h]

theorem C3_constant_reads_witness :
    type_getattr envD "D" "bar" = .ok cBar.value ∧
    object_getattr envD ⟨"D", []⟩ "bar" = .ok cBar.value :=
  ⟨(C3_constant_reads envD "D" "bar" cBar (by decide)).1.1,
   (C3_constant_reads envD "D" "bar" cBar (by decide)).1.2 []⟩

/-! ### C4 -/

/-- C4: for a name resolving to a `class_constant` on the instance's
class, writing any value directly into the instance's private storage
under that name does not change what reading the name returns — the read
still yields the slot's value.  Concretely, after injecting
`"hello"` under `"bar"` into a `D` instance's storage, `d.bar` is still
`"hello there"`. -/
theorem C4_slot_beats_instance_storage (env : Env) (T n : String)
    (c : class_constant) (h : lookupInMro env (mroOf env T) n = some (Attr.slot c)) :
    (∀ idict v, object_getattr env ⟨T, vSet idict n v⟩ n = .ok c.value ∧
      object_getattr env ⟨T, vSet idict n v⟩ n = object_getattr env ⟨T, idict⟩ n) ∧
    object_getattr envD ⟨"D", vSet [] "bar" (Value.str "hello")⟩ "bar" =
      .ok (Value.str "hello there") := by
  refine ⟨?_, by decide⟩
  intro idict v
  constructor
  · simp [object_getattr, h]
  · simp [object_getattr, h]

theorem C4_slot_beats_instance_storage_witness :
    object_getattr envD ⟨"D", vSet [] "bar" (Value.str "hello")⟩ "bar" = .ok cBar.value ∧
    object_getattr envD ⟨"D", vSet [] "bar" (Value.str "hello")⟩ "bar" =
      object_getattr envD ⟨"D", []⟩ "bar" :=
  (C4_slot_beats_instance_storage envD "D" "bar" cBar (by decide)).1 [] (Value.str "hello")

/-! ### C5 -/

/-- C5, as stated, is refuted: the errors do not carry the spec's
literal message texts.  The instance-path message is
`class constant 'bar' of 'D' object cannot be modified.` — not
`constant 'bar' of 'D' object cannot be modified.` — and the type-path
message is `Cannot modify class constant 'D.bar'.`, not
`Cannot modify constant 'D.bar'.`; a slot renders as
`class constant '<name>'`, not `constant '<name>'`. -/
theorem C5_counterexample :
    object_setattr envD dInst "bar" (Value.str "hello") =
      .error ("class constant " ++ sglq ++ "bar" ++ sglq ++ " of " ++ sglq ++ "D" ++ sglq ++
        " object cannot be modified.") ∧
    ¬ object_setattr envD dInst "bar" (Value.str "hello") =
      .error ("constant " ++ sglq ++ "bar" ++ sglq ++ " of " ++ sglq ++ "D" ++ sglq ++
        " object cannot be modified.") ∧
    ¬ setattrOnType envD "D" "bar" (Value.str "hello") =
      .error ("Cannot modify constant " ++ sglq ++ "D.bar" ++ sglq ++ ".") ∧
    ¬ reprSlot cBar = "constant " ++ sglq ++ "bar" ++ sglq := by
  exact ⟨by decide, by decide, by decide, by decide⟩

/-- C5 (amended): every message carries the words `class constant`: the
instance-path messages are
`class constant '<name>' of '<type>' object cannot be modified.` and
`... cannot be deleted.`, the type-path messages are
`Cannot modify class constant '<type>.<name>'.` and
`Cannot delete class constant '<type>.<name>'.`, and a slot renders as
`class constant '<name>'`; all four are observed verbatim on the literal
hierarchy. -/
theorem C5_message_texts :
    object_setattr envD dInst "bar" (Value.str "hello") =
      .error ("class constant " ++ sglq ++ "bar" ++ sglq ++ " of " ++ sglq ++ "D" ++ sglq ++
        " object cannot be modified.") ∧
    object_delattr envD dInst "gaz" =
      .error ("class constant " ++ sglq ++ "gaz" ++ sglq ++ " of " ++ sglq ++ "D" ++ sglq ++
        " object cannot be deleted.") ∧
    setattrOnType envD "D" "bar" (Value.str "hello") =
      .error ("Cannot modify class constant " ++ sglq ++ "D.bar" ++ sglq ++ ".") ∧
    delattrOnType envD "D" "gaz" =
      .error ("Cannot delete class constant " ++ sglq ++ "D.gaz" ++ sglq ++ ".") ∧
    lookupInMro envD (mroOf envD "D") "bar" = some (Attr.slot cBar) ∧
    reprSlot cBar = "class constant " ++ sglq ++ "bar" ++ sglq := by
  exact ⟨by decide, by decide, by decide, by decide, by decide, by decide⟩

/-! ### C6 -/

/-- C6, as stated, is refuted: after `D` finishes construction, a plain
type-level assignment to `__constants__` succeeds and replaces the
published metadata (the guard only protects names held by
`class_constant` slots, and `__constants__` is an ordinary set). -/
theorem C6_counterexample :
    setattrOnType envD "D" "__constants__" (Value.strset []) = .ok envD6 ∧
    type_getattr envD6 "D" "__constants__" = .ok (Value.strset []) ∧
    "bar" ∈ publishedOf envD "D" ∧
    publishedOf envD6 "D" = [] := by
  exact ⟨by decide, by decide, by decide, by decide⟩

/-- C6 (amended): the published `__constants__` metadata of a
constructed type is an ordinary attribute, not protected by the guard:
whenever `__constants__` is not itself held by a `class_constant`
anywhere in the type's inheritance order (which the registrar never
does), type-level assignment to it succeeds and delegates to ordinary
attribute assignment. -/
theorem C6_constants_is_mutable (env : Env) (clsName : String) (cls : PyClass)
    (v : Value) (hc : findClass env clsName = some cls)
    (hscan : is_class_constant env cls.mro "__constants__" = false) :
    setattrOnType env clsName "__constants__" v =
      .ok (type_setattr env clsName "__constants__" v) := by
  unfold setattrOnType
  rw [hc]
  show (if cls.isMyMeta = true then MyMeta_setattr env clsName "__constants__" v
    else Except.ok (type_setattr env clsName "__constants__" v)) = _
  cases hm : cls.isMyMeta with
  | false => rw [if_neg (by simp)]
  | true =>
    rw [if_pos rfl]
    unfold MyMeta_setattr
    rw [hc]
    show (if is_class_constant env cls.mro "__constants__" = true then
        Except.error ("Cannot modify class constant " ++ sglq ++ cls.cname ++ "." ++
          "__constants__" ++ sglq ++ ".")
      else Except.ok (type_setattr env clsName "__constants__" v)) = _
    rw [hscan]
    simp

theorem C6_constants_is_mutable_witness :
    setattrOnType envD "D" "__constants__" (Value.strset []) =
      .ok (type_setattr envD "D" "__constants__" (Value.strset [])) :=
  C6_constants_is_mutable envD "D" clsD (Value.strset []) (by decide) (by decide)

/-! ### Helper lemmas for the construction claims -/

theorem lookupInMro_cons_hit (env : Env) (m : String) (rest : List String)
    (a : String) (c : PyClass) (f : Attr) (hc : findClass env m = some c)
    (hg : nsGet c.dict a = some f) : lookupInMro env (m :: rest) a = some f := by
  unfold lookupInMro
  rw [hc]
  show (match nsGet c.dict a with
    | Option.some found => Option.some found
    | Option.none => lookupInMro env rest a) = some f
  rw [hg]

theorem findClass_type_setattr_head (cls0 : PyClass) (env : Env) (k : String) (v : Value) :
    findClass (type_setattr (cls0 :: env) cls0.cname k v) cls0.cname
      = some ({ cls0 with dict := nsSet cls0.dict k (Attr.plain v) }) := by
  unfold type_setattr updateClass
  rw [List.map_cons, if_pos (by simp)]
  exact findClass_cons_self _ _

theorem publishedOf_after (name : String) (dict0 : NS) (merged : List String)
    (env : Env) (consts : List String) :
    publishedOf (type_setattr
      ((⟨name, dict0, name :: merged, true⟩ : PyClass) :: env)
      name "__constants__" (Value.strset consts)) name = consts := by
  have hfind := findClass_type_setattr_head ⟨name, dict0, name :: merged, true⟩ env
    "__constants__" (Value.strset consts)
  have hl := lookupInMro_cons_hit
    (type_setattr ((⟨name, dict0, name :: merged, true⟩ : PyClass) :: env)
      name "__constants__" (Value.strset consts))
    name merged "__constants__" _ _ hfind
    (nsGet_nsSet_self dict0 "__constants__" (Attr.plain (Value.strset consts)))
  unfold publishedOf type_getattr
  rw [show mroOf (type_setattr ((⟨name, dict0, name :: merged, true⟩ : PyClass) :: env)
      name "__constants__" (Value.strset consts)) name = name :: merged from by
    unfold mroOf; rw [hfind]; rfl]
  rw [hl]

theorem mroOf_after (name : String) (dict0 : NS) (merged : List String)
    (env : Env) (consts : List String) :
    mroOf (type_setattr ((⟨name, dict0, name :: merged, true⟩ : PyClass) :: env)
      name "__constants__" (Value.strset consts)) name = name :: merged := by
  unfold mroOf
  rw [findClass_type_setattr_head ⟨name, dict0, name :: merged, true⟩ env
    "__constants__" (Value.strset consts)]
  rfl

theorem type_getattr_cons_fresh (c0 : PyClass) (env : Env) (b a : String)
    (anc : PyClass) (hanc : findClass env b = some anc)
    (hne : c0.cname ≠ b) (hfr : c0.cname ∉ anc.mro) :
    type_getattr (c0 :: env) b a = type_getattr env b a := by
  unfold type_getattr
  have h1 : mroOf (c0 :: env) b = anc.mro := by
    unfold mroOf; rw [findClass_cons_ne _ _ _ hne, hanc]; rfl
  have h2 : mroOf env b = anc.mro := by
    unfold mroOf; rw [hanc]; rfl
  rw [h1, h2, lookupInMro_fresh c0 env anc.mro a hfr]

theorem processAttrs_none_default (l : List String) (ns : NS) (a : String)
    (ha : a ∈ l) (h : nsGet ns a = none) :
    nsGet (processAttrs ns l) a = some (Attr.slot (make_class_constant Value.none)) := by
  induction l generalizing ns with
  | nil => cases ha
  | cons b rest ih =>
    unfold processAttrs
    by_cases hb : b = a
    · subst hb
      rw [h]
      exact processAttrs_preserves_slot rest _ b _ (nsGet_nsSet_self _ _ _)
    · have har : a ∈ rest := by
        rcases List.mem_cons.mp ha with h1 | h2
        · exact absurd h1.symm hb
        · exact h2
      cases hg : nsGet ns b with
      | none =>
        refine ih _ har ?_
        show nsGet (nsSet ns b (Attr.slot (make_class_constant Value.none))) a = none
        rw [nsGet_nsSet_ne _ _ _ _ (Ne.symm hb)]; exact h
      | some f =>
        cases f with
        | plain v =>
          refine ih _ har ?_
          show nsGet (nsSet ns b (Attr.slot (make_class_constant v))) a = none
          rw [nsGet_nsSet_ne _ _ _ _ (Ne.symm hb)]; exact h
        | slot c' => exact ih _ har h

/-- If the post-construction guard check passed, the processed namespace
holds no `class_constant` under a given name present at the head of the
method resolution order. -/
theorem scan_false_no_head_slot (env : Env) (name : String) (dict0 : NS)
    (merged : List String) (a : String)
    (hscan : is_class_constant ((⟨name, dict0, name :: merged, true⟩ : PyClass) :: env)
      (name :: merged) a = false)
    (c : class_constant) (hg : nsGet dict0 a = some (Attr.slot c)) : False := by
  have : is_class_constant ((⟨name, dict0, name :: merged, true⟩ : PyClass) :: env)
      (name :: merged) a = true :=
    (is_class_constant_iff _ _ _).mpr
      ⟨name, List.mem_cons_self _ _, ⟨name, dict0, name :: merged, true⟩,
        findClass_cons_self _ _, c, hg⟩
  rw [hscan] at this
  cases this

/-! ### C2 -/

/-- C2: the published constant-name set of a registrar-constructed type
contains every ancestor's published set (monotonicity along the
inheritance graph); concretely, the published set of `D` in the literal
hierarchy equals `{"foo", "bar", "gaz"}`. -/
theorem C2_published_monotone (env : Env) (name : String) (bases : List String)
    (ns : NS) (env' : Env) (ancName : String) (anc : PyClass) (ancSet : List String)
    (hok : MyMeta_new env name bases ns = .ok env')
    (hanc : findClass env ancName = some anc)
    (hne : ancName ≠ name) (hfr : name ∉ anc.mro)
    (hmem : ancName ∈ mroOf env' name)
    (hset : type_getattr env ancName "__constants__" = .ok (Value.strset ancSet)) :
    ancSet ⊆ publishedOf env' name ∧
    (publishedOf envD "D" ⊆ ["foo", "bar", "gaz"] ∧
      ["foo", "bar", "gaz"] ⊆ publishedOf envD "D") := by
  refine ⟨?_, by decide, by decide⟩
  obtain ⟨declared, mro, consts, hdecl, hmro, hgc, hscan, he⟩ := MyMeta_new_ok _ _ _ _ _ hok
  obtain ⟨ms, merged, hms, hmg, hmq⟩ := computeMro_spec env name bases mro hmro
  subst hmq
  have hpub : publishedOf env' name = consts := by
    rw [he]
    exact publishedOf_after name (MyMeta_new_dict ns declared) merged env consts
  have hmro' : mroOf env' name = name :: merged := by
    rw [he]
    exact mroOf_after name (MyMeta_new_dict ns declared) merged env consts
  rw [hmro'] at hmem
  have hst : type_getattr
      ((⟨name, MyMeta_new_dict ns declared, name :: merged, true⟩ : PyClass) :: env)
      ancName "__constants__" = .ok (Value.strset ancSet) := by
    rw [type_getattr_cons_fresh _ env ancName _ anc hanc (fun e => hne e.symm) hfr]
    exact hset
  rw [hpub]
  exact gather_visit _ _ _ _ ancName ancSet hgc hmem hst

theorem C2_published_monotone_witness :
    publishedOf envC "B" ⊆ publishedOf envD "D" ∧
    (publishedOf envD "D" ⊆ ["foo", "bar", "gaz"] ∧
      ["foo", "bar", "gaz"] ⊆ publishedOf envD "D") :=
  C2_published_monotone envC "D" ["C", "B"] nsD envD "B" clsB (publishedOf envC "B")
    (by decide) (by decide) (by decide) (by decide) (by decide) (by decide)

/-! ### C7 -/

/-- C7: a declared constant name with no matching namespace entry does
not make construction fail; it becomes a `class_constant` holding the
absence sentinel `None`, readable on the finished type like any other
constant.  Concretely, a class `G` declaring `lazy` without a value is
constructed successfully and `G.lazy` reads `None`. -/
theorem C7_lazy_default (env : Env) (name : String) (bases : List String)
    (ns : NS) (env' : Env) (declared : List String) (a : String)
    (hok : MyMeta_new env name bases ns = .ok env')
    (hdecl : extractDeclared ns = .ok declared) (ha : a ∈ declared)
    (hnone : nsGet ns a = none) :
    nsGet (MyMeta_new_dict ns declared) a = some (Attr.slot ⟨some a, Value.none⟩) ∧
    type_getattr env' name a = .ok Value.none ∧
    (define_class envInit "G" [] nsG true = .ok envG ∧
      type_getattr envG "G" "lazy" = .ok Value.none) := by
  obtain ⟨declared', mro, consts, hdecl', hmro, hgc, hscan, he⟩ := MyMeta_new_ok _ _ _ _ _ hok
  rw [hdecl] at hdecl'
  cases hdecl'
  obtain ⟨ms, merged, hms, hmg, hmq⟩ := computeMro_spec env name bases mro hmro
  subst hmq
  have h1 : nsGet (nsPop ns "__constant_attrs__") a = none := by
    by_cases hca : a = "__constant_attrs__"
    · rw [hca]; exact nsGet_nsPop_self ns _
    · rw [nsGet_nsPop_ne ns _ _ hca]; exact hnone
  have h2 : nsGet (processAttrs (nsPop ns "__constant_attrs__") declared) a
      = some (Attr.slot (make_class_constant Value.none)) :=
    processAttrs_none_default declared _ a ha h1
  have h3 : nsGet (MyMeta_new_dict ns declared) a = some (Attr.slot ⟨some a, Value.none⟩) := by
    unfold MyMeta_new_dict
    rw [nsGet_bindNames, h2]
    rfl
  refine ⟨h3, ?_, by decide, by decide⟩
  have hac : a ≠ "__constants__" := by
    intro e
    exact scan_false_no_head_slot env name (MyMeta_new_dict ns declared) merged
      "__constants__" hscan _ (e ▸ h3)
  have hfind := findClass_type_setattr_head
    ⟨name, MyMeta_new_dict ns declared, name :: merged, true⟩ env
    "__constants__" (Value.strset consts)
  have hget : nsGet (nsSet (MyMeta_new_dict ns declared) "__constants__"
      (Attr.plain (Value.strset consts))) a = some (Attr.slot ⟨some a, Value.none⟩) := by
    rw [nsGet_nsSet_ne _ _ _ _ hac]
    exact h3
  rw [he]
  unfold type_getattr
  rw [mroOf_after name (MyMeta_new_dict ns declared) merged env consts]
  rw [lookupInMro_cons_hit _ name merged a _ _ hfind hget]

theorem C7_lazy_default_witness :
    nsGet (MyMeta_new_dict nsG ["lazy"]) "lazy"
      = some (Attr.slot ⟨some "lazy", Value.none⟩) ∧
    type_getattr envG "G" "lazy" = .ok Value.none :=
  ⟨(C7_lazy_default envInit "G" ["object"] nsG envG ["lazy"] "lazy"
      (by decide) (by decide) (by decide) (by decide)).1,
   (C7_lazy_default envInit "G" ["object"] nsG envG ["lazy"] "lazy"
      (by decide) (by decide) (by decide) (by decide)).2.1⟩

/-! ### C8 -/

/-- C8: the declaration field `__constant_attrs__` is consumed during
construction — the finished type's own namespace does not hold it as an
ordinary attribute — and every declared name is held as a
`class_constant` in the finished namespace rather than as its raw
value. -/
theorem C8_declaration_consumed (env : Env) (name : String) (bases : List String)
    (ns : NS) (env' : Env) (declared : List String) (cls : PyClass)
    (hok : MyMeta_new env name bases ns = .ok env')
    (hdecl : extractDeclared ns = .ok declared)
    (hfind : findClass env' name = some cls) :
    isPlainEntry (nsGet cls.dict "__constant_attrs__") = false ∧
    ∀ a ∈ declared, isSlotEntry (nsGet cls.dict a) = true := by
  obtain ⟨declared', mro, consts, hdecl', hmro, hgc, hscan, he⟩ := MyMeta_new_ok _ _ _ _ _ hok
  rw [hdecl] at hdecl'
  cases hdecl'
  obtain ⟨ms, merged, hms, hmg, hmq⟩ := computeMro_spec env name bases mro hmro
  subst hmq
  have hcls : cls = (⟨name, nsSet (MyMeta_new_dict ns declared) "__constants__"
      (Attr.plain (Value.strset consts)), name :: merged, true⟩ : PyClass) := by
    rw [he] at hfind
    rw [findClass_type_setattr_head ⟨name, MyMeta_new_dict ns declared, name :: merged, true⟩
      env "__constants__" (Value.strset consts)] at hfind
    cases hfind
    rfl
  subst hcls
  constructor
  · have hne : ("__constant_attrs__" : String) ≠ "__constants__" := by decide
    show isPlainEntry (nsGet (nsSet (MyMeta_new_dict ns declared) "__constants__"
      (Attr.plain (Value.strset consts))) "__constant_attrs__") = false
    rw [nsGet_nsSet_ne _ _ _ _ hne]
    unfold MyMeta_new_dict
    rw [nsGet_bindNames]
    rcases processAttrs_get_or_slot declared (nsPop ns "__constant_attrs__")
        "__constant_attrs__" with h1 | h1
    · rw [h1, nsGet_nsPop_self]
      rfl
    · obtain ⟨c, hcs⟩ := h1
      rw [hcs]
      rfl
  · intro a ha
    obtain ⟨c, hc⟩ := processAttrs_declared_slot declared (nsPop ns "__constant_attrs__") a ha
    have h3 : nsGet (MyMeta_new_dict ns declared) a = some (Attr.slot ⟨some a, c.value⟩) := by
      unfold MyMeta_new_dict
      rw [nsGet_bindNames, hc]
      rfl
    have hac : a ≠ "__constants__" := by
      intro e
      exact scan_false_no_head_slot env name (MyMeta_new_dict ns declared) merged
        "__constants__" hscan _ (e ▸ h3)
    show isSlotEntry (nsGet (nsSet (MyMeta_new_dict ns declared) "__constants__"
      (Attr.plain (Value.strset consts))) a) = true
    rw [nsGet_nsSet_ne _ _ _ _ hac, h3]
    rfl

theorem C8_declaration_consumed_witness :
    isPlainEntry (nsGet clsG.dict "__constant_attrs__") = false ∧
    isSlotEntry (nsGet clsG.dict "lazy") = true :=
  ⟨(C8_declaration_consumed envInit "G" ["object"] nsG envG ["lazy"] clsG
      (by decide) (by decide) (by decide)).1,
   (C8_declaration_consumed envInit "G" ["object"] nsG envG ["lazy"] clsG
      (by decide) (by decide) (by decide)).2 "lazy" (by decide)⟩

/-! ### C9 -/

/-- C9, as stated, is refuted: on the registrar type `E` (which
redeclares the inherited constant name `bar` as an ordinary attribute),
`bar` does not resolve through the inheritance order to a
`class_constant` — it resolves to the plain value `5` — yet the
type-level guard still raises; the guard's actual condition is the scan
of every namespace in the method resolution order, not the conjunction
stated by the claim. -/
theorem C9_counterexample :
    setattrOnType envE "E" "bar" (Value.int 7) =
      .error ("Cannot modify class constant " ++ sglq ++ "E.bar" ++ sglq ++ ".") ∧
    "bar" ∈ publishedOf envE "E" ∧
    lookupInMro envE (mroOf envE "E") "bar" = some (Attr.plain (Value.int 5)) := by
  exact ⟨by decide, by decide, by decide⟩

/-- C9 (amended): the type-level guard raises exactly when some class in
the type's method resolution order holds a `class_constant` under the
name in its own namespace; in every other case assignment and deletion
delegate to the ordinary host operations, so non-constant type-level
attributes keep working normally. -/
theorem C9_guard_scan_iff (env : Env) (clsName n : String) (cls : PyClass)
    (v : Value) (hc : findClass env clsName = some cls) (hm : cls.isMyMeta = true) :
    (is_class_constant env cls.mro n = true →
      setattrOnType env clsName n v =
        .error ("Cannot modify class constant " ++ sglq ++ clsName ++ "." ++ n ++ sglq ++ ".") ∧
      delattrOnType env clsName n =
        .error ("Cannot delete class constant " ++ sglq ++ clsName ++ "." ++ n ++ sglq ++ ".")) ∧
    (is_class_constant env cls.mro n = false →
      setattrOnType env clsName n v = .ok (type_setattr env clsName n v) ∧
      delattrOnType env clsName n = type_delattr env clsName n) := by
  have hname : cls.cname = clsName := (findClass_mem env clsName cls hc).2
  constructor
  · intro hscan
    constructor
    · unfold setattrOnType
      rw [hc]
      show (if cls.isMyMeta = true then MyMeta_setattr env clsName n v
        else Except.ok (type_setattr env clsName n v)) = _
      rw [hm, if_pos rfl]
      unfold MyMeta_setattr
      rw [hc]
      show (if is_class_constant env cls.mro n = true then
          Except.error ("Cannot modify class constant " ++ sglq ++ cls.cname ++ "." ++ n ++ sglq ++ ".")
        else Except.ok (type_setattr env clsName n v)) = _
      rw [hscan, if_pos rfl, hname]
    · unfold delattrOnType
      rw [hc]
      show (if cls.isMyMeta = true then MyMeta_delattr env clsName n
        else type_delattr env clsName n) = _
      rw [hm, if_pos rfl]
      unfold MyMeta_delattr
      rw [hc]
      show (if is_class_constant env cls.mro n = true then
          Except.error ("Cannot delete class constant " ++ sglq ++ cls.cname ++ "." ++ n ++ sglq ++ ".")
        else type_delattr env clsName n) = _
      rw [hscan, if_pos rfl, hname]
  · intro hscan
    constructor
    · unfold setattrOnType
      rw [hc]
      show (if cls.isMyMeta = true then MyMeta_setattr env clsName n v
        else Except.ok (type_setattr env clsName n v)) = _
      rw [hm, if_pos rfl]
      unfold MyMeta_setattr
      rw [hc]
      show (if is_class_constant env cls.mro n = true then
          Except.error ("Cannot modify class constant " ++ sglq ++ cls.cname ++ "." ++ n ++ sglq ++ ".")
        else Except.ok (type_setattr env clsName n v)) = _
      rw [hscan]
      simp
    · unfold delattrOnType
      rw [hc]
      show (if cls.isMyMeta = true then MyMeta_delattr env clsName n
        else type_delattr env clsName n) = _
      rw [hm, if_pos rfl]
      unfold MyMeta_delattr
      rw [hc]
      show (if is_class_constant env cls.mro n = true then
          Except.error ("Cannot delete class constant " ++ sglq ++ cls.cname ++ "." ++ n ++ sglq ++ ".")
        else type_delattr env clsName n) = _
      rw [hscan]
      simp

theorem C9_guard_scan_iff_witness :
    setattrOnType envD "D" "bar" (Value.str "hello") =
      .error ("Cannot modify class constant " ++ sglq ++ "D" ++ "." ++ "bar" ++ sglq ++ ".") ∧
    delattrOnType envD "D" "bar" =
      .error ("Cannot delete class constant " ++ sglq ++ "D" ++ "." ++ "bar" ++ sglq ++ ".") :=
  (C9_guard_scan_iff envD "D" "bar" clsD (Value.str "hello")
    (by decide) (by decide)).1 (by decide)

theorem scanNames_mem (env : Env) (mro : List String) (k : String) :
    k ∈ scanNames env mro ↔
      ∃ m ∈ mro, ∃ Y, findClass env m = some Y ∧ k ∈ slotNamesOf Y.dict := by
  induction mro with
  | nil => simp [scanNames]
  | cons m rest ih =>
    unfold scanNames
    rw [List.foldr_cons]
    constructor
    · intro h
      rcases List.mem_append.mp h with h1 | h2
      · cases hc : findClass env m with
        | none => rw [hc] at h1; cases h1
        | some Y =>
          rw [hc] at h1
          exact ⟨m, List.mem_cons_self _ _, Y, hc, h1⟩
      · obtain ⟨m', hm', r⟩ := (ih).mp h2
        exact ⟨m', List.mem_cons_of_mem _ hm', r⟩
    · rintro ⟨m', hm', Y, hY, hk⟩
      rcases List.mem_cons.mp hm' with h1 | h2
      · subst h1
        refine List.mem_append.mpr (Or.inl ?_)
        rw [hY]
        exact hk
      · exact List.mem_append.mpr (Or.inr ((ih).mpr ⟨m', h2, Y, hY, hk⟩))

theorem mro_head_cons (X : PyClass) (h : X.mro.head? = some X.cname) :
    X.mro = X.cname :: X.mro.tail := by
  cases hm : X.mro with
  | nil => rw [hm] at h; cases h
  | cons a t =>
    rw [hm] at h
    simp only [List.head?_cons, Option.some.injEq] at h
    rw [h]
    rfl

theorem mro_head_mem (X : PyClass) (h : X.mro.head? = some X.cname) :
    X.cname ∈ X.mro := by
  rw [mro_head_cons X h]
  exact List.mem_cons_self _ _

/-! ### C10 -/

/-- C10, as stated, is refuted: `E` is registrar-constructed, all its
proper ancestors other than the constant-free host root `object` (`B`
and `A`) are registrar-constructed, and `bar` is in `E`'s published
`__constants__`, yet `bar` does not resolve through `E`'s inheritance
order to a `class_constant` — it resolves to the plain `5` that `E`'s
body redeclared. -/
theorem C10_counterexample :
    (findClass envE "E").map (fun c => c.isMyMeta) = some true ∧
    (findClass envE "B").map (fun c => c.isMyMeta) = some true ∧
    (findClass envE "A").map (fun c => c.isMyMeta) = some true ∧
    mroOf envE "E" = ["E", "B", "A", "object"] ∧
    (findClass envE "object").map (fun c => c.dict) = some [] ∧
    "bar" ∈ publishedOf envE "E" ∧
    lookupInMro envE (mroOf envE "E") "bar" = some (Attr.plain (Value.int 5)) := by
  exact ⟨by decide, by decide, by decide, by decide, by decide, by decide, by decide⟩

/-- C10 (amended): construction preserves the coincidence between the
published set and the guard's protection.  If, in the current
environment, every class has a well-formed method resolution order
(headed by its own name, closed under the stored orders of its members),
namespaces with unique keys, a set-shaped `__constants__` wherever
readable, and its published set coinciding with the set of names some
class of its resolution order holds as a `class_constant` — then after a
successful registrar construction of a fresh class, every name of the
new type's published `__constants__` set is held as a `class_constant`
by some class of its method resolution order, and conversely; so the
guard's protection covers exactly the published names of the new type. -/
theorem C10_registrar_preserves_coincidence (env : Env) (name : String)
    (bases : List String) (ns : NS) (env' : Env)
    (hmroWF : ∀ X ∈ env, X.mro.head? = some X.cname ∧
      ∀ m ∈ X.mro, ∃ Y ∈ env, findClass env m = some Y ∧ Y.mro ⊆ X.mro)
    (hdict : ∀ X ∈ env, (nsKeys X.dict).Nodup)
    (hinv : ∀ X ∈ env,
      (∀ k ∈ publishedOf env X.cname, k ∈ scanNames env X.mro) ∧
      (∀ k ∈ scanNames env X.mro, k ∈ publishedOf env X.cname))
    (hconst : ∀ X ∈ env, constOkB env X.cname = true)
    (hfresh : ∀ X ∈ env, X.cname ≠ name)
    (hns : nsGet ns "__constants__" = none)
    (hnsnd : (nsKeys ns).Nodup)
    (hok : MyMeta_new env name bases ns = .ok env') :
    ∀ k, k ∈ publishedOf env' name ↔
      is_class_constant env' (mroOf env' name) k = true := by
  obtain ⟨declared, mro, consts, hdecl, hmro, hgc, hscan, he⟩ := MyMeta_new_ok _ _ _ _ _ hok
  obtain ⟨ms, merged, hms, hmg, hmq⟩ := computeMro_spec env name bases mro hmro
  subst hmq
  -- the final environment is the new class consed onto the old one
  have henv' : env' = (⟨name, nsSet (MyMeta_new_dict ns declared) "__constants__"
      (Attr.plain (Value.strset consts)), name :: merged, true⟩ : PyClass) :: env := by
    rw [he]
    exact type_setattr_cons ⟨name, MyMeta_new_dict ns declared, name :: merged, true⟩
      env "__constants__" (Value.strset consts) hfresh
  have hfind' : findClass env' name = some
      (⟨name, nsSet (MyMeta_new_dict ns declared) "__constants__"
        (Attr.plain (Value.strset consts)), name :: merged, true⟩ : PyClass) := by
    rw [henv']
    exact findClass_cons_self _ env
  have hmro' : mroOf env' name = name :: merged := by
    unfold mroOf
    rw [hfind']
    rfl
  have hpub : publishedOf env' name = consts := by
    rw [he]
    exact publishedOf_after name (MyMeta_new_dict ns declared) merged env consts
  -- keys of the processed namespace are unique
  have hd0nd : (nsKeys (MyMeta_new_dict ns declared)).Nodup := by
    unfold MyMeta_new_dict
    rw [nsKeys_bindNames]
    exact nsKeys_nodup_processAttrs _ _ (nsKeys_nodup_nsPop _ _ hnsnd)
  -- every member of the merged tail names an existing class whose
  -- stored method resolution order stays inside the merged tail
  have hF3 : ∀ m ∈ merged, ∃ Y, Y ∈ env ∧ findClass env m = some Y ∧ Y.mro ⊆ merged := by
    intro m hm
    rcases computeMro_tail_src env bases merged ms hms hmg m hm with h1 | ⟨b, hb, cb, hcb, hmb⟩
    · obtain ⟨cm, hcm, _⟩ := lookupMros_base env bases ms hms m h1
      exact ⟨cm, (findClass_mem env m cm hcm).1, hcm,
        computeMro_base_sub env bases merged ms hms hmg m h1 cm hcm⟩
    · have hcbm : cb ∈ env := (findClass_mem env b cb hcb).1
      obtain ⟨_, h2⟩ := hmroWF cb hcbm
      obtain ⟨Y, hYm, hYf, hYsub⟩ := h2 m hmb
      exact ⟨Y, hYm, hYf, fun x hx =>
        computeMro_base_sub env bases merged ms hms hmg b hb cb hcb (hYsub hx)⟩
  have hnn : ∀ m ∈ merged, m ≠ name := by
    intro m hm e
    obtain ⟨Y, hYm, hYf, _⟩ := hF3 m hm
    exact hfresh Y hYm ((findClass_mem env m Y hYf).2.trans e)
  have hnotin : ∀ Y ∈ env, name ∉ Y.mro := by
    intro Y hY hmem
    obtain ⟨_, h2⟩ := hmroWF Y hY
    obtain ⟨Z, hZm, hZf, _⟩ := h2 name hmem
    exact hfresh Z hZm (findClass_mem env name Z hZf).2
  -- the processed namespace holds nothing under `__constants__`
  have hd0c : nsGet (MyMeta_new_dict ns declared) "__constants__" = none := by
    have t1 : nsGet (nsPop ns "__constant_attrs__") "__constants__" = none := by
      rw [nsGet_nsPop_ne _ _ _ (by decide)]
      exact hns
    rcases processAttrs_get_or_slot declared (nsPop ns "__constant_attrs__")
        "__constants__" with h1 | ⟨c, h1⟩
    · unfold MyMeta_new_dict
      rw [nsGet_bindNames, h1, t1]
      rfl
    · exfalso
      refine scan_false_no_head_slot env name (MyMeta_new_dict ns declared) merged
        "__constants__" hscan ⟨some "__constants__", c.value⟩ ?_
      unfold MyMeta_new_dict
      rw [nsGet_bindNames, h1]
      rfl
  -- reads of `__constants__` through old classes ignore the new one
  have hstab : ∀ b Yb, Yb ∈ env → findClass env b = some Yb →
      type_getattr ((⟨name, MyMeta_new_dict ns declared, name :: merged, true⟩ : PyClass) :: env)
        b "__constants__" = type_getattr env b "__constants__" := by
    intro b Yb hYb hfb
    exact type_getattr_cons_fresh _ env b "__constants__" Yb hfb
      (fun e => hfresh Yb hYb ((findClass_mem env b Yb hfb).2.trans e.symm))
      (hnotin Yb hYb)
  -- a name published on an old class of the merged tail is guarded on the new class
  have hpush : ∀ m ∈ merged, ∀ kk, kk ∈ publishedOf env m →
      is_class_constant env' (name :: merged) kk = true := by
    intro m hm kk hkk
    obtain ⟨Ym, hYmem, hYfind, hYsub⟩ := hF3 m hm
    have hcn : Ym.cname = m := (findClass_mem env m Ym hYfind).2
    have h1 := (hinv Ym hYmem).1 kk (by rw [hcn]; exact hkk)
    obtain ⟨m', hm', Z, hZfind, hZslot⟩ := (scanNames_mem env Ym.mro kk).mp h1
    have hm'm : m' ∈ merged := hYsub hm'
    have hZmem : Z ∈ env := (findClass_mem env m' Z hZfind).1
    obtain ⟨c, hcz⟩ := (slotNamesOf_mem _ _).mp hZslot
    have hget : nsGet Z.dict kk = some (Attr.slot c) :=
      entry_nsGet _ _ _ (hdict Z hZmem) hcz
    have hfindZ : findClass env' m' = some Z := by
      rw [henv']
      rw [findClass_cons_ne _ env m' (fun e => hnn m' hm'm e.symm)]
      exact hZfind
    exact (is_class_constant_iff env' (name :: merged) kk).mpr
      ⟨m', List.mem_cons_of_mem _ hm'm, Z, hfindZ, c, hget⟩
  rw [hmro', hpub]
  intro k
  constructor
  · -- published → guarded
    intro hk
    rcases gather_sound _ _ _ _ k hgc hk with hacc | ⟨b, hb, v, s, hv, hs, hks⟩
    · -- from the new class's own namespace
      have hslot : ∃ c, nsGet (MyMeta_new_dict ns declared) k = some (Attr.slot c) := by
        rcases List.mem_append.mp hacc with h1 | h1
        · obtain ⟨c, hc⟩ := processAttrs_declared_slot declared
            (nsPop ns "__constant_attrs__") k h1
          refine ⟨⟨some k, c.value⟩, ?_⟩
          unfold MyMeta_new_dict
          rw [nsGet_bindNames, hc]
          rfl
        · obtain ⟨c, hcz⟩ := (slotNamesOf_mem _ _).mp h1
          exact ⟨c, entry_nsGet _ _ _ hd0nd hcz⟩
      obtain ⟨c, hc⟩ := hslot
      have hkne : k ≠ "__constants__" := fun e =>
        scan_false_no_head_slot env name (MyMeta_new_dict ns declared) merged
          "__constants__" hscan c (e ▸ hc)
      refine (is_class_constant_iff env' (name :: merged) k).mpr
        ⟨name, List.mem_cons_self _ _, _, hfind', c, ?_⟩
      show nsGet (nsSet (MyMeta_new_dict ns declared) "__constants__"
        (Attr.plain (Value.strset consts))) k = some (Attr.slot c)
      rw [nsGet_nsSet_ne _ _ _ _ hkne]
      exact hc
    · -- from a published set gathered along the method resolution order
      have hend : ∀ m ∈ merged, type_getattr env m "__constants__" = .ok v →
          is_class_constant env' (name :: merged) k = true := by
        intro m hm hvb
        obtain ⟨Ym, hYmem, hYf, _⟩ := hF3 m hm
        have hcn : Ym.cname = m := (findClass_mem env m Ym hYf).2
        have hcb := hconst Ym hYmem
        rw [hcn] at hcb
        unfold constOkB at hcb
        rw [hvb] at hcb
        cases v with
        | strset l =>
          have hs' : Except.ok (ε := String) l = Except.ok s := hs
          cases hs'
          have hpb : publishedOf env m = s := by
            unfold publishedOf
            rw [hvb]
          exact hpush m hm k (hpb ▸ hks)
        | int n => exact Bool.noConfusion hcb
        | str s' => exact Bool.noConfusion hcb
        | none => exact Bool.noConfusion hcb
      rcases List.mem_cons.mp hb with hbn | hbm
      · -- the read through the new class itself resolves on an ancestor
        subst hbn
        have hl0 : lookupInMro
            ((⟨b, MyMeta_new_dict ns declared, b :: merged, true⟩ : PyClass) :: env)
            (b :: merged) "__constants__" = lookupInMro env merged "__constants__" := by
          show (match findClass
              ((⟨b, MyMeta_new_dict ns declared, b :: merged, true⟩ : PyClass) :: env) b with
            | Option.some c =>
              match nsGet c.dict "__constants__" with
              | Option.some f => Option.some f
              | Option.none => lookupInMro
                  ((⟨b, MyMeta_new_dict ns declared, b :: merged, true⟩ : PyClass) :: env)
                  merged "__constants__"
            | Option.none => lookupInMro
                ((⟨b, MyMeta_new_dict ns declared, b :: merged, true⟩ : PyClass) :: env)
                merged "__constants__") = lookupInMro env merged "__constants__"
          rw [show findClass
              ((⟨b, MyMeta_new_dict ns declared, b :: merged, true⟩ : PyClass) :: env) b
              = some (⟨b, MyMeta_new_dict ns declared, b :: merged, true⟩ : PyClass) from
            findClass_cons_self _ env]
          show (match nsGet (MyMeta_new_dict ns declared) "__constants__" with
            | Option.some f => Option.some f
            | Option.none => lookupInMro
                ((⟨b, MyMeta_new_dict ns declared, b :: merged, true⟩ : PyClass) :: env)
                merged "__constants__") = lookupInMro env merged "__constants__"
          rw [hd0c]
          exact lookupInMro_fresh _ env merged "__constants__"
            (fun hmem => hnn b hmem rfl)
        unfold type_getattr at hv
        rw [show mroOf ((⟨b, MyMeta_new_dict ns declared, b :: merged, true⟩ : PyClass) :: env) b
            = b :: merged from by
          unfold mroOf
          rw [show findClass
              ((⟨b, MyMeta_new_dict ns declared, b :: merged, true⟩ : PyClass) :: env) b
              = some (⟨b, MyMeta_new_dict ns declared, b :: merged, true⟩ : PyClass) from
            findClass_cons_self _ env]
          rfl] at hv
        rw [hl0] at hv
        cases hlk : lookupInMro env merged "__constants__" with
        | none =>
          rw [hlk] at hv
          exact absurd hv (by simp)
        | some attr =>
          rw [hlk] at hv
          obtain ⟨m, hm, Ym, hYf, hYg⟩ := lookupInMro_exists env merged "__constants__" attr hlk
          have hYmem : Ym ∈ env := (findClass_mem env m Ym hYf).1
          have hcn : Ym.cname = m := (findClass_mem env m Ym hYf).2
          have hmrocons : Ym.mro = m :: Ym.mro.tail := by
            have h0 := mro_head_cons Ym (hmroWF Ym hYmem).1
            rw [hcn] at h0
            exact h0
          refine hend m hm ?_
          unfold type_getattr
          rw [show mroOf env m = Ym.mro from by unfold mroOf; rw [hYf]; rfl]
          rw [show lookupInMro env Ym.mro "__constants__" = some attr from by
            rw [hmrocons]
            exact lookupInMro_cons_hit env m Ym.mro.tail "__constants__" Ym attr hYf hYg]
          exact hv
      · -- the read through an old class of the merged tail
        obtain ⟨Yb, hYbm, hYbf, _⟩ := hF3 b hbm
        refine hend b hbm ?_
        rw [← hstab b Yb hYbm hYbf]
        exact hv
  · -- guarded → published
    intro hsc
    obtain ⟨m, hm, Z, hZf, c, hZg⟩ := (is_class_constant_iff env' (name :: merged) k).mp hsc
    rcases List.mem_cons.mp hm with rfl | hmm
    · -- the slot lives on the new class itself
      have hZ : Z = (⟨m, nsSet (MyMeta_new_dict ns declared) "__constants__"
          (Attr.plain (Value.strset consts)), m :: merged, true⟩ : PyClass) := by
        rw [hfind'] at hZf
        cases hZf
        rfl
      subst hZ
      have hkne : k ≠ "__constants__" := by
        intro e
        rw [e] at hZg
        have : nsGet (nsSet (MyMeta_new_dict ns declared) "__constants__"
            (Attr.plain (Value.strset consts))) "__constants__"
            = some (Attr.plain (Value.strset consts)) := nsGet_nsSet_self _ _ _
        rw [this] at hZg
        cases hZg
      have hd0k : nsGet (MyMeta_new_dict ns declared) k = some (Attr.slot c) := by
        have h0 : nsGet (nsSet (MyMeta_new_dict ns declared) "__constants__"
            (Attr.plain (Value.strset consts))) k = some (Attr.slot c) := hZg
        rw [nsGet_nsSet_ne _ _ _ _ hkne] at h0
        exact h0
      have hk_in : k ∈ slotNamesOf (MyMeta_new_dict ns declared) :=
        (slotNamesOf_mem _ _).mpr ⟨c, nsGet_entry _ _ _ hd0k⟩
      exact gather_acc_sub _ _ _ _ hgc (List.mem_append_right _ hk_in)
    · -- the slot lives on an old class of the merged tail
      have hZf' : findClass env m = some Z := by
        rw [henv'] at hZf
        rw [findClass_cons_ne _ env m (fun e => hnn m hmm e.symm)] at hZf
        exact hZf
      have hZmem : Z ∈ env := (findClass_mem env m Z hZf').1
      have hcn : Z.cname = m := (findClass_mem env m Z hZf').2
      have hsn : k ∈ scanNames env Z.mro := by
        refine (scanNames_mem env Z.mro k).mpr
          ⟨m, ?_, Z, hZf', (slotNamesOf_mem _ _).mpr ⟨c, nsGet_entry _ _ _ hZg⟩⟩
        rw [← hcn]
        exact mro_head_mem Z (hmroWF Z hZmem).1
      have hpz := (hinv Z hZmem).2 k hsn
      rw [hcn] at hpz
      have hex : ∃ l, type_getattr env m "__constants__" = .ok (Value.strset l) ∧ k ∈ l := by
        unfold publishedOf at hpz
        cases hg : type_getattr env m "__constants__" with
        | ok v =>
          cases v with
          | strset l =>
            rw [hg] at hpz
            exact ⟨l, rfl, hpz⟩
          | int n => rw [hg] at hpz; exact absurd hpz (List.not_mem_nil k)
          | str s' => rw [hg] at hpz; exact absurd hpz (List.not_mem_nil k)
          | none => rw [hg] at hpz; exact absurd hpz (List.not_mem_nil k)
        | error e => rw [hg] at hpz; exact absurd hpz (List.not_mem_nil k)
      obtain ⟨l, hgl, hkl⟩ := hex
      obtain ⟨Ym, hYmem2, hYf2, _⟩ := hF3 m hmm
      have hgl0 : type_getattr
          ((⟨name, MyMeta_new_dict ns declared, name :: merged, true⟩ : PyClass) :: env)
          m "__constants__" = .ok (Value.strset l) := by
        rw [hstab m Ym hYmem2 hYf2]
        exact hgl
      exact gather_visit _ _ _ _ m l hgc (List.mem_cons_of_mem _ hmm) hgl0 hkl

theorem C10_registrar_preserves_coincidence_witness :
    "bar" ∈ publishedOf envD "D" ↔
      is_class_constant envD (mroOf envD "D") "bar" = true :=
  C10_registrar_preserves_coincidence envC "D" ["C", "B"] nsD envD
    (by decide) (by decide) (by decide) (by decide) (by decide) (by decide)
    (by decide) (by decide) "bar"
